import Mathlib

/-!
Verification of the SimHash similarity test harness (`test-similarities.py`).

The Python source is shallowly embedded: strings become Lean `String`s,
Python floats become exact rationals (`ℚ`), Python ints become `Nat`/`Int`
with explicit `% 2 ^ 32` where the source reduces modulo `2 ^ 32`, and the
exception-raising standard-library call `statistics.stdev` becomes an
`Except`-valued function.  The regex character class `\w` and `str.lower`
are modelled at the ASCII level (`Char.isAlphanum`/`'_'` and
`Char.toLower`); both the fingerprint path and the Jaccard path use the
same tokenizer, exactly as both call sites share `re.findall(r'\b\w+\b',
text.lower())` in the source.
-/

namespace SimHashTest

/-- Membership in the regex class `\w` (alphanumeric or underscore), the
token characters of `re.findall(r'\b\w+\b', ...)` in the source. -/
def isWordChar (c : Char) : Bool :=
  c.isAlphanum || c == '_'

/-- Splitting a character list into the maximal runs of `\w` characters,
carrying the (reversed) current run; this is what
`re.findall(r'\b\w+\b', s)` returns, since `\b` holds exactly at the two
ends of a maximal `\w` run. -/
def tokenizeAux : List Char → List Char → List String
  | [], cur => if cur.isEmpty then [] else [String.mk cur.reverse]
  | c :: cs, cur =>
    if isWordChar c then
      tokenizeAux cs (c :: cur)
    else if cur.isEmpty then
      tokenizeAux cs []
    else
      String.mk cur.reverse :: tokenizeAux cs []

/-- The tokenization `re.findall(r'\b\w+\b', text.lower())` shared by
`simhash_hash` (line 90) and `compute_simple_similarity` (lines 64-65). -/
def tokenize (text : String) : List String :=
  tokenizeAux (text.data.map Char.toLower) []

/-- The inner FNV-1a hash `hash_string` of `simhash_hash` (lines 82-87):
start at `2166136261`, fold each character as
`h = ((h XOR ord(char)) * 16777619) % 2 ** 32`. -/
def hash_string (s : String) : Nat :=
  s.data.foldl (fun h c => ((h ^^^ c.toNat) * 16777619) % 2 ^ 32) 2166136261

/-- One accumulator update of the inner loop of `simhash_hash`
(lines 97-102): at index `i`, add 1 when bit `(word_hash >> (i % 32)) & 1`
is set, else subtract 1. -/
def voteStep (wh : Nat) (i : Nat) (x : Int) : Int :=
  if (wh >>> (i % 32)) &&& 1 = 1 then x + 1 else x - 1

/-- The loop `for i in range(bits)` of `simhash_hash` updating every entry
of the accumulator `v`, starting at index `k`. -/
def updateVotesFrom (wh : Nat) : Nat → List Int → List Int
  | _, [] => []
  | k, x :: xs => voteStep wh k x :: updateVotesFrom wh (k + 1) xs

/-- The accumulator update performed for one word of `simhash_hash`
(lines 95-102). -/
def updateVotes (wh : Nat) (v : List Int) : List Int :=
  updateVotesFrom wh 0 v

/-- The fingerprint function `simhash_hash(text, bits)` (lines 76-110).
`bits` defaults to 64 in the source and is passed explicitly here:
empty text returns 0 at once; otherwise the word votes are accumulated
and bit `i` of the result is set (`simhash |= 1 << i`) exactly when the
final accumulator entry `v[i]` is strictly positive. -/
def simhash_hash (text : String) (bits : Nat) : Nat :=
  if text = "" then 0
  else
    let words := tokenize text
    let v := words.foldl (fun acc w => updateVotes (hash_string w) acc)
      (List.replicate bits (0 : Int))
    (List.range bits).foldl
      (fun s i => if 0 < v.getD i 0 then s ||| (1 <<< i) else s) 0

/-- The loop of `hamming_distance` (lines 116-118) with an explicit fuel
argument making the recursion structural: while the value is nonzero,
add its low bit and shift right.  Since the value at least halves each
iteration, any fuel of at least the starting value is enough. -/
def popcountGo (fuel : Nat) (n : Nat) : Nat :=
  match fuel with
  | 0 => 0
  | f + 1 => if n = 0 then 0 else n % 2 + popcountGo f (n / 2)

/-- The loop body of `hamming_distance` (lines 112-119): repeatedly add
the low bit and shift right until zero, i.e. the number of set bits. -/
def popcount (n : Nat) : Nat :=
  popcountGo n n

/-- The function `hamming_distance(hash1, hash2)` (lines 112-119): the
number of set bits of `hash1 XOR hash2`. -/
def hamming_distance (hash1 hash2 : Nat) : Nat :=
  popcount (hash1 ^^^ hash2)

/-- The function `simhash_similarity(text1, text2)` (lines 121-127):
both texts are fingerprinted at the default width 64 and the similarity
is `1 - distance / 64`. -/
def simhash_similarity (text1 text2 : String) : ℚ :=
  1 - (hamming_distance (simhash_hash text1 64) (simhash_hash text2 64) : ℚ) / 64

/-- The distinct-word set `set(re.findall(r'\b\w+\b', text.lower()))`
built by `compute_simple_similarity` (lines 64-65). -/
def wordSet (text : String) : Finset String :=
  (tokenize text).toFinset

/-- The Jaccard reference `compute_simple_similarity(text1, text2)`
(lines 58-74): 0 when either text is empty, 0 when either word set is
empty, otherwise `|w1 ∩ w2| / |w1 ∪ w2|` (guarded by `union > 0`). -/
def compute_simple_similarity (text1 text2 : String) : ℚ :=
  if text1 = "" ∨ text2 = "" then 0
  else
    let words1 := wordSet text1
    let words2 := wordSet text2
    if words1 = ∅ ∨ words2 = ∅ then 0
    else
      let inter := (words1 ∩ words2).card
      let uni := (words1 ∪ words2).card
      if 0 < uni then (inter : ℚ) / uni else 0

/-- Modelled from the spec (§4.2, steps 1-3): the signed counter for bit
position `i` after all tokens are processed — each token contributes `+1`
when bit `(hash >> (i mod 32)) & 1` of its 32-bit hash is 1 and `-1`
otherwise, starting from 0. -/
def specAccumulator (tokens : List String) (i : Nat) : Int :=
  (tokens.map fun t =>
    if (hash_string t >>> (i % 32)) &&& 1 = 1 then (1 : Int) else -1).sum

/-- Modelled from the spec (§4.2, step 4): bit `i` of the fingerprint is
1 exactly when the final counter for position `i` is strictly positive
(a zero counter resolves to 0), for every `i` in `0..B-1`. -/
def specFingerprint (tokens : List String) (B : Nat) : Nat :=
  ∑ i in Finset.range B, if 0 < specAccumulator tokens i then 2 ^ i else 0

/-- The pair-sampling loop of `analyze_test_corpus` (lines 168-204), with
the random draws made explicit as the list of drawn content pairs (one
entry per loop iteration, i.e. `num_samples = draws.length`): a drawn
pair whose content is empty on either side is skipped by `continue`
(lines 181-182); every other pair is appended to `all_pairs` with both
similarity scores (lines 184-199). -/
def accumulatePairs (draws : List (String × String)) : List (ℚ × ℚ) :=
  draws.filterMap fun p =>
    if p.1 = "" ∨ p.2 = "" then none
    else some (compute_simple_similarity p.1 p.2, simhash_similarity p.1 p.2)

/-- The bucket boundaries `bins = [0.0, 0.1, ..., 1.0]` of
`print_statistics` (line 256), with the float literals read as the exact
rationals they denote. -/
def bins : List ℚ := [0, 0.1, 0.2, 0.3, 0.4, 0.5, 0.6, 0.7, 0.8, 0.9, 1.0]

/-- The bucket-selection loop of `print_statistics` (lines 259-266): the
first `i` in `0..9` with `bins[i] <= sim < bins[i+1]` wins; when no
bucket matches (the loop's `else` branch), an exact `sim == 1.0` goes to
the last bucket `hist[-1]`, and any other value is dropped. -/
def bucketOf (sim : ℚ) : Option Nat :=
  match (List.range 10).find?
      (fun i => decide (bins.getD i 0 ≤ sim ∧ sim < bins.getD (i + 1) 0)) with
  | some i => some i
  | none => if sim = 1 then some 9 else none

/-- One iteration of the histogram loop: increment the chosen bucket. -/
def addToHist (hist : List Nat) (sim : ℚ) : List Nat :=
  match bucketOf sim with
  | some i => hist.set i (hist.getD i 0 + 1)
  | none => hist

/-- The full histogram `hist` of `print_statistics` (lines 257-266),
starting from ten zero counters. -/
def histogram (sims : List ℚ) : List Nat :=
  sims.foldl addToHist (List.replicate 10 0)

/-- The reported share `percentage = (count / len(all_sims)) * 100` of
`print_statistics` (line 271). -/
def percentage (count total : Nat) : ℚ :=
  ((count : ℚ) / total) * 100

/-- The arithmetic mean used by the sample variance. -/
def pyMean (xs : List ℚ) : ℚ := xs.sum / xs.length

/-- Modelled from the spec (§4.4/§7, with the Python standard library's
documented behaviour, which is not part of src/): `statistics.stdev`
raises `StatisticsError` when given fewer than two data points, and
otherwise returns the sample standard deviation.  The raise is modelled
as `Except.error`; the ok branch carries the sample variance (the square
of the standard deviation) so that the value stays in `ℚ`. -/
def statistics_stdev (xs : List ℚ) : Except String ℚ :=
  if xs.length < 2 then Except.error "StatisticsError"
  else Except.ok ((xs.map fun x => (x - pyMean xs) ^ 2).sum / ((xs.length : ℚ) - 1))

/-- The per-view standard-deviation reporting step of `print_statistics`
(lines 242-252): a view (e.g. `same_sims`) is printed only when nonempty
(`if same_sims:`), in which case `statistics.stdev` is called on it;
`none` records that the view's block was skipped. -/
def reportStdDev (sims : List ℚ) : Option (Except String ℚ) :=
  if sims = [] then none else some (statistics_stdev sims)

/-! ### Helper lemmas about `popcount` -/

lemma popcountGo_zero (f : Nat) : popcountGo f 0 = 0 := by
  cases f <;> simp [popcountGo]

lemma popcountGo_fuel_irrel :
    ∀ n f g : Nat, n ≤ f → n ≤ g → popcountGo f n = popcountGo g n := by
  intro n
  induction n using Nat.strong_induction_on with
  | _ n ih =>
    intro f g hf hg
    rcases Nat.eq_zero_or_pos n with hn | hn
    · subst hn; rw [popcountGo_zero, popcountGo_zero]
    · obtain ⟨f, rfl⟩ : ∃ f', f = f' + 1 :=
        ⟨f - 1, by omega⟩
      obtain ⟨g, rfl⟩ : ∃ g', g = g' + 1 :=
        ⟨g - 1, by omega⟩
      have hdiv : n / 2 < n := Nat.div_lt_self hn Nat.one_lt_two
      simp only [popcountGo, if_neg (Nat.pos_iff_ne_zero.mp hn)]
      rw [ih (n / 2) hdiv f g (by omega) (by omega)]

lemma popcount_step (n : Nat) : popcount n = n % 2 + popcount (n / 2) := by
  rcases Nat.eq_zero_or_pos n with hn | hn
  · subst hn; simp [popcount, popcountGo]
  · obtain ⟨m, rfl⟩ : ∃ m, n = m + 1 := ⟨n - 1, by omega⟩
    unfold popcount
    have h1 : popcountGo (m + 1) (m + 1)
        = (m + 1) % 2 + popcountGo m ((m + 1) / 2) := by
      simp [popcountGo]
    rw [h1, popcountGo_fuel_irrel ((m + 1) / 2) m ((m + 1) / 2) (by omega) le_rfl]

lemma popcount_zero : popcount 0 = 0 := by
  simp [popcount, popcountGo]

/-- Any number below `2 ^ k` has at most `k` set bits. -/
lemma popcount_le_of_lt_two_pow : ∀ k n : Nat, n < 2 ^ k → popcount n ≤ k := by
  intro k
  induction k with
  | zero =>
    intro n hn
    interval_cases n
    simp [popcount_zero]
  | succ k ih =>
    intro n hn
    rw [popcount_step]
    have h2 : n / 2 < 2 ^ k := by
      rw [Nat.div_lt_iff_lt_mul Nat.two_pos]
      calc n < 2 ^ (k + 1) := hn
        _ = 2 ^ k * 2 := by rw [Nat.pow_succ]
    have := ih (n / 2) h2
    have := Nat.mod_lt n (y := 2) Nat.two_pos
    omega

/-! ### OR of a fresh high bit is addition -/

lemma lor_two_pow_of_lt {s B : Nat} (h : s < 2 ^ B) : s ||| 2 ^ B = s + 2 ^ B := by
  apply Nat.eq_of_testBit_eq
  intro i
  rcases lt_trichotomy i B with hi | hi | hi
  · rw [Nat.testBit_lor, Nat.add_comm, Nat.testBit_two_pow_add_gt hi,
      Nat.testBit_two_pow_of_ne (by omega), Bool.or_false]
  · subst hi
    rw [Nat.testBit_lor, Nat.add_comm, Nat.testBit_two_pow_add_eq,
      Nat.testBit_lt_two_pow h, Nat.testBit_two_pow_self]
    rfl
  · have hsB : s + 2 ^ B < 2 ^ i := by
      have h1 : 2 ^ (B + 1) ≤ 2 ^ i := Nat.pow_le_pow_right Nat.two_pos hi
      have h2 : 2 ^ (B + 1) = 2 ^ B + 2 ^ B := by rw [Nat.pow_succ]; omega
      omega
    rw [Nat.testBit_lor, Nat.testBit_lt_two_pow hsB,
      Nat.testBit_lt_two_pow (lt_trans h (Nat.pow_lt_pow_right Nat.one_lt_two hi)),
      Nat.testBit_two_pow_of_ne (by omega)]
    rfl

/-! ### The bit-assembly fold of `simhash_hash` as a sum of powers of two -/

lemma sum_ite_two_pow_lt (p : Nat → Prop) [DecidablePred p] :
    ∀ B : Nat, (∑ i in Finset.range B, if p i then 2 ^ i else 0) < 2 ^ B := by
  intro B
  induction B with
  | zero => simp
  | succ B ih =>
    rw [Finset.sum_range_succ]
    have hle : (if p B then 2 ^ B else 0) ≤ 2 ^ B := by split <;> omega
    have hpow : 2 ^ (B + 1) = 2 ^ B + 2 ^ B := by rw [Nat.pow_succ]; omega
    omega

lemma foldl_or_range (p : Nat → Prop) [DecidablePred p] :
    ∀ B : Nat, (List.range B).foldl (fun s i => if p i then s ||| (1 <<< i) else s) 0
      = ∑ i in Finset.range B, if p i then 2 ^ i else 0 := by
  intro B
  induction B with
  | zero => simp
  | succ B ih =>
    rw [List.range_succ, List.foldl_append, ih, Finset.sum_range_succ]
    simp only [List.foldl_cons, List.foldl_nil]
    split
    · rw [Nat.shiftLeft_eq, Nat.one_mul, lor_two_pow_of_lt (sum_ite_two_pow_lt p B)]
    · rw [Nat.add_zero]

/-! ### The vote accumulator, entry by entry -/

lemma updateVotesFrom_length (wh : Nat) :
    ∀ (v : List Int) (k : Nat), (updateVotesFrom wh k v).length = v.length := by
  intro v
  induction v with
  | nil => intro k; rfl
  | cons x xs ih => intro k; simp [updateVotesFrom, ih]

lemma updateVotesFrom_getD (wh : Nat) :
    ∀ (v : List Int) (k i : Nat), i < v.length →
      (updateVotesFrom wh k v).getD i 0 = voteStep wh (k + i) (v.getD i 0) := by
  intro v
  induction v with
  | nil => intro k i h; simp at h
  | cons x xs ih =>
    intro k i h
    cases i with
    | zero => simp [updateVotesFrom]
    | succ i =>
      simp only [updateVotesFrom, List.getD_cons_succ]
      rw [ih (k + 1) i (by simp at h; omega)]
      congr 1
      omega

lemma foldl_updateVotes_length :
    ∀ (words : List String) (v : List Int),
      (words.foldl (fun acc w => updateVotes (hash_string w) acc) v).length = v.length := by
  intro words
  induction words with
  | nil => intro v; rfl
  | cons w ws ih =>
    intro v
    simp only [List.foldl_cons]
    rw [ih, updateVotes, updateVotesFrom_length]

lemma foldl_updateVotes_getD :
    ∀ (words : List String) (v : List Int) (i : Nat), i < v.length →
      (words.foldl (fun acc w => updateVotes (hash_string w) acc) v).getD i 0
        = v.getD i 0 + specAccumulator words i := by
  intro words
  induction words with
  | nil => intro v i h; simp [specAccumulator]
  | cons w ws ih =>
    intro v i h
    simp only [List.foldl_cons]
    rw [ih (updateVotes (hash_string w) v) i
        (by rw [updateVotes, updateVotesFrom_length]; exact h)]
    rw [updateVotes, updateVotesFrom_getD (hash_string w) v 0 i h]
    simp only [specAccumulator, List.map_cons, List.sum_cons, voteStep, Nat.zero_add]
    split
    · rw [← specAccumulator]; ring
    · rw [← specAccumulator]; ring

lemma getD_replicate_zero : ∀ (b i : Nat), (List.replicate b (0 : Int)).getD i 0 = 0 := by
  intro b
  induction b with
  | zero => intro i; simp
  | succ b ih =>
    intro i
    cases i with
    | zero => simp [List.replicate]
    | succ i => simp [List.replicate, ih i]

/-- The central refinement fact: for every text and width, the source's
`simhash_hash` produces exactly the fingerprint described by the spec's
accumulate-and-threshold algorithm over the same token sequence. -/
lemma simhash_hash_eq_specFingerprint (text : String) (B : Nat) :
    simhash_hash text B = specFingerprint (tokenize text) B := by
  by_cases h : text = ""
  · subst h
    have htok : tokenize "" = [] := rfl
    rw [simhash_hash, if_pos rfl, specFingerprint, htok]
    rw [eq_comm]
    apply Finset.sum_eq_zero
    intro i _
    simp [specAccumulator]
  · rw [simhash_hash, if_neg h, specFingerprint]
    simp only []
    rw [foldl_or_range]
    apply Finset.sum_congr rfl
    intro i hi
    have hlen : i < (List.replicate B (0 : Int)).length := by
      simpa using Finset.mem_range.mp hi
    rw [foldl_updateVotes_getD (tokenize text) (List.replicate B 0) i hlen,
      getD_replicate_zero, Int.zero_add]

/-- The fingerprint has no bits at positions `≥ B`. -/
lemma simhash_hash_lt (text : String) (B : Nat) : simhash_hash text B < 2 ^ B := by
  rw [simhash_hash_eq_specFingerprint, specFingerprint]
  exact sum_ite_two_pow_lt _ B

/-! ### Range facts for the two similarity scores -/

lemma hamming_distance_le_64 {h1 h2 : Nat} (hh1 : h1 < 2 ^ 64) (hh2 : h2 < 2 ^ 64) :
    hamming_distance h1 h2 ≤ 64 :=
  popcount_le_of_lt_two_pow 64 _ (Nat.xor_lt_two_pow hh1 hh2)

lemma one_sub_div_range {d : Nat} (hd : d ≤ 64) :
    0 ≤ 1 - (d : ℚ) / 64 ∧ 1 - (d : ℚ) / 64 ≤ 1 := by
  constructor
  · have hle : (d : ℚ) / 64 ≤ 1 := by
      rw [div_le_one (by norm_num)]
      exact_mod_cast hd
    linarith
  · have hge : 0 ≤ (d : ℚ) / 64 := by positivity
    linarith

lemma compute_simple_similarity_range (t1 t2 : String) :
    0 ≤ compute_simple_similarity t1 t2 ∧ compute_simple_similarity t1 t2 ≤ 1 := by
  simp only [compute_simple_similarity]
  split_ifs with h1 h2 h3
  · norm_num
  · norm_num
  · constructor
    · positivity
    · rw [div_le_one (by exact_mod_cast h3)]
      exact_mod_cast Finset.card_le_card
        (subset_trans Finset.inter_subset_left Finset.subset_union_left)
  · norm_num

/-! ### Claim theorems -/

/-- C1: for every text at the default width `B = 64`, `simhash_hash`
computes exactly the fingerprint of the spec's algorithm: each token of
the lowercased text is hashed with FNV-1a (`h = 2166136261`, folded as
`h = ((h XOR code_point) * 16777619) mod 2^32`); the signed counter for
bit position `i` moves by `+1`/`-1` according to bit
`(hash >> (i mod 32)) & 1`; and bit `i` of the result is 1 exactly when
the final counter is strictly positive, with ties resolving to 0. -/
theorem C1_simhash_hash_follows_spec (text : String) :
    simhash_hash text 64 = specFingerprint (tokenize text) 64 :=
  simhash_hash_eq_specFingerprint text 64

/-- C2 counterexample: the code silently compares fingerprints of
different widths.  Fingerprinting the same text `"alpha beta"` at width
64 and at width 32 and running the Hamming-derived comparison of
`simhash_similarity` (distance, then `1 - d/64`) yields the plain value
`53/64` — no WidthMismatch error condition exists anywhere in the code,
and the division is by 64 even though one operand is 32 bits wide. -/
theorem C2_counterexample_silent_mixed_width :
    1 - (hamming_distance (simhash_hash "alpha beta" 64)
        (simhash_hash "alpha beta" 32) : ℚ) / 64 = 53 / 64 := by
  have h : hamming_distance (simhash_hash "alpha beta" 64)
      (simhash_hash "alpha beta" 32) = 11 := by decide
  rw [h]
  norm_num

/-- C2 amended: the code has no width tracking or width check.
`hamming_distance` is a width-agnostic popcount of the XOR and the
similarity formula always divides by 64, so comparing fingerprints
produced with any two widths up to 64 silently yields a defined value in
`[0, 1]` instead of failing with a WidthMismatch error. -/
theorem C2_amended_no_width_check (t u : String) (b1 b2 : Nat)
    (h1 : b1 ≤ 64) (h2 : b2 ≤ 64) :
    0 ≤ 1 - (hamming_distance (simhash_hash t b1) (simhash_hash u b2) : ℚ) / 64 ∧
    1 - (hamming_distance (simhash_hash t b1) (simhash_hash u b2) : ℚ) / 64 ≤ 1 := by
  apply one_sub_div_range
  apply hamming_distance_le_64
  · exact lt_of_lt_of_le (simhash_hash_lt t b1) (Nat.pow_le_pow_right Nat.two_pos h1)
  · exact lt_of_lt_of_le (simhash_hash_lt u b2) (Nat.pow_le_pow_right Nat.two_pos h2)

/-- Witness for the amended C2 at widths 64 and 32. -/
theorem C2_amended_witness :
    (64 ≤ 64 ∧ 32 ≤ 64) ∧
    (0 ≤ 1 - (hamming_distance (simhash_hash "a" 64) (simhash_hash "b" 32) : ℚ) / 64 ∧
      1 - (hamming_distance (simhash_hash "a" 64) (simhash_hash "b" 32) : ℚ) / 64 ≤ 1) :=
  ⟨⟨by norm_num, by norm_num⟩,
    C2_amended_no_width_check "a" "b" 64 32 (by norm_num) (by norm_num)⟩

/-- C9: for every pair of input texts, including empty strings, both the
SimHash similarity and the Jaccard similarity lie in `[0, 1]`. -/
theorem C9_similarities_in_unit_interval (t1 t2 : String) :
    (0 ≤ simhash_similarity t1 t2 ∧ simhash_similarity t1 t2 ≤ 1) ∧
    (0 ≤ compute_simple_similarity t1 t2 ∧ compute_simple_similarity t1 t2 ≤ 1) := by
  constructor
  · rw [simhash_similarity]
    apply one_sub_div_range
    exact hamming_distance_le_64 (simhash_hash_lt t1 64) (simhash_hash_lt t2 64)
  · exact compute_simple_similarity_range t1 t2

/-- C10: for every non-empty text `t`, the SimHash similarity of the
empty string against `t` equals `1 - popcount(simhash_hash(t, 64)) / 64`
(the empty side fingerprints to 0, so the distance is the popcount of
`t`'s fingerprint); in particular it is strictly positive whenever the
fingerprint of `t` has fewer than 64 set bits, so the SimHash path does
not map one-sided lack of content to similarity 0. -/
theorem C10_empty_side_similarity (t : String) (_h : t ≠ "") :
    simhash_similarity "" t = 1 - (popcount (simhash_hash t 64) : ℚ) / 64 ∧
    (popcount (simhash_hash t 64) < 64 → 0 < simhash_similarity "" t) := by
  have h0 : simhash_hash "" 64 = 0 := by rw [simhash_hash, if_pos rfl]
  have hd : hamming_distance (simhash_hash "" 64) (simhash_hash t 64)
      = popcount (simhash_hash t 64) := by
    rw [h0, hamming_distance, Nat.zero_xor]
  constructor
  · rw [simhash_similarity, hd]
  · intro hlt
    rw [simhash_similarity, hd]
    have hq : (popcount (simhash_hash t 64) : ℚ) / 64 < 1 := by
      rw [div_lt_one (by norm_num)]
      exact_mod_cast hlt
    linarith

/-- Witness for C10 at `t = "a"`, whose fingerprint has 24 set bits. -/
theorem C10_witness :
    (("a" : String) ≠ "" ∧ popcount (simhash_hash "a" 64) < 64) ∧
    0 < simhash_similarity "" "a" :=
  ⟨⟨by decide, by decide⟩, (C10_empty_side_similarity "a" (by decide)).2 (by decide)⟩

lemma wordSet_ne_empty {t : String} (h : tokenize t ≠ []) : wordSet t ≠ ∅ := by
  rw [wordSet]
  obtain ⟨w, ws, hw⟩ : ∃ w ws, tokenize t = w :: ws := by
    cases hc : tokenize t with
    | nil => exact absurd hc h
    | cons w ws => exact ⟨w, ws, rfl⟩
  rw [hw]
  simp

lemma simhash_hash_eq_zero_of_tokens_nil {t : String} (b : Nat)
    (h : tokenize t = []) : simhash_hash t b = 0 := by
  rw [simhash_hash_eq_specFingerprint, h, specFingerprint]
  apply Finset.sum_eq_zero
  intro i _
  simp [specAccumulator]

/-- C3 counterexample: `"!"` is a non-empty text, yet the Jaccard
self-similarity computed by `compute_simple_similarity` is 0, not 1,
because the text has no word tokens and the empty-word-set branch
returns 0 before the ratio is formed. -/
theorem C3_counterexample_tokenless_text :
    ("!" : String) ≠ "" ∧ compute_simple_similarity "!" "!" ≠ 1 := by
  constructor
  · decide
  · decide

/-- C3 amended: for every text with at least one word token (rather than
every non-empty text), the SimHash similarity of the text with itself is
exactly 1 and the Jaccard similarity of the text with itself is exactly
1.  (The SimHash half in fact holds for every text; the Jaccard half
fails for non-empty texts whose token sequence is empty.) -/
theorem C3_amended_self_similarity (t : String) (h : tokenize t ≠ []) :
    simhash_similarity t t = 1 ∧ compute_simple_similarity t t = 1 := by
  constructor
  · rw [simhash_similarity, hamming_distance, Nat.xor_self, popcount_zero]
    norm_num
  · have ht : t ≠ "" := by
      intro he
      subst he
      exact h rfl
    have hw : wordSet t ≠ ∅ := wordSet_ne_empty h
    have hpos : 0 < (wordSet t).card :=
      Finset.card_pos.mpr (Finset.nonempty_iff_ne_empty.mpr hw)
    have hc : 0 < (wordSet t ∪ wordSet t).card := by
      rw [Finset.union_self]
      exact hpos
    simp only [compute_simple_similarity]
    rw [if_neg (by simp [ht]), if_neg (by simp [hw]), if_pos hc,
      Finset.inter_self, Finset.union_self]
    exact div_self (by exact_mod_cast hpos.ne')

/-- Witness for the amended C3 at `t = "a"`. -/
theorem C3_amended_witness :
    tokenize "a" ≠ [] ∧
    (simhash_similarity "a" "a" = 1 ∧ compute_simple_similarity "a" "a" = 1) :=
  ⟨by decide, C3_amended_self_similarity "a" (by decide)⟩

/-- C4: every text whose token sequence is empty (the empty string, or
punctuation/whitespace only) fingerprints to 0 at any width, and two
such documents receive SimHash similarity exactly 1. -/
theorem C4_empty_tokens_fingerprint_zero (t u : String) (b : Nat)
    (ht : tokenize t = []) (hu : tokenize u = []) :
    simhash_hash t b = 0 ∧ simhash_similarity t u = 1 := by
  refine ⟨simhash_hash_eq_zero_of_tokens_nil b ht, ?_⟩
  rw [simhash_similarity, simhash_hash_eq_zero_of_tokens_nil 64 ht,
    simhash_hash_eq_zero_of_tokens_nil 64 hu, hamming_distance, Nat.xor_self,
    popcount_zero]
  norm_num

/-- Witness for C4: a punctuation-only document and an empty document. -/
theorem C4_witness :
    (tokenize "!" = [] ∧ tokenize "" = []) ∧
    (simhash_hash "!" 64 = 0 ∧ simhash_similarity "!" "" = 1) :=
  ⟨⟨by decide, by decide⟩,
    C4_empty_tokens_fingerprint_zero "!" "" 64 (by decide) (by decide)⟩

/-- C5: whenever either text's set of distinct word tokens is empty
(including empty strings on either or both sides), the Jaccard
similarity is exactly 0 — a defined rational value, never an undefined
result. -/
theorem C5_jaccard_empty_set_zero (t1 t2 : String)
    (h : wordSet t1 = ∅ ∨ wordSet t2 = ∅) :
    compute_simple_similarity t1 t2 = 0 := by
  simp only [compute_simple_similarity]
  split_ifs <;> rfl

/-- Witness for C5 with an empty string against a punctuation-only
text. -/
theorem C5_witness :
    (wordSet "" = ∅ ∨ wordSet "%%" = ∅) ∧
    compute_simple_similarity "" "%%" = 0 :=
  ⟨Or.inl (by decide), C5_jaccard_empty_set_zero "" "%%" (Or.inl (by decide))⟩

lemma accumulatePairs_length (draws : List (String × String)) :
    (accumulatePairs draws).length
        + draws.countP (fun p => decide (p.1 = "" ∨ p.2 = "")) = draws.length := by
  induction draws with
  | nil => rfl
  | cons p ps ih =>
    by_cases hp : p.1 = "" ∨ p.2 = ""
    · have hstep : accumulatePairs (p :: ps) = accumulatePairs ps := by
        simp [accumulatePairs, List.filterMap_cons, hp]
      have hcnt : (p :: ps).countP (fun q => decide (q.1 = "" ∨ q.2 = ""))
          = ps.countP (fun q => decide (q.1 = "" ∨ q.2 = "")) + 1 := by
        simp [List.countP_cons, hp]
      rw [hstep, hcnt, List.length_cons]
      omega
    · have hstep : (accumulatePairs (p :: ps)).length
          = (accumulatePairs ps).length + 1 := by
        simp [accumulatePairs, List.filterMap_cons, hp]
      have hcnt : (p :: ps).countP (fun q => decide (q.1 = "" ∨ q.2 = ""))
          = ps.countP (fun q => decide (q.1 = "" ∨ q.2 = "")) := by
        simp [List.countP_cons, hp]
      rw [hstep, hcnt, List.length_cons]
      omega

/-- C7 counterexample: a run of `N = 2` draws in which the first drawn
pair has empty content on one side.  The loop skips the pair with
`continue` but never redraws, so the iteration is consumed and only one
valid pair is accumulated — not `N = 2`, even though the corpus offers
plenty of non-empty documents. -/
theorem C7_counterexample_skip_consumes_draw :
    (accumulatePairs [("a", ""), ("b", "c")]).length ≠
      [("a", ""), ("b", "c")].length := by
  decide

/-- C7 amended: a drawn pair with empty extracted content on either side
is skipped without being appended to the accumulated results, but the
draw iteration is consumed rather than redrawn: the number of
accumulated valid pairs is `N` minus the number of skipped draws, and it
equals the sample count `N` exactly when no drawn pair had empty content
on either side. -/
theorem C7_amended_skips_consume_draws (draws : List (String × String)) :
    (accumulatePairs draws).length
        + draws.countP (fun p => decide (p.1 = "" ∨ p.2 = "")) = draws.length ∧
    ((∀ p ∈ draws, p.1 ≠ "" ∧ p.2 ≠ "") →
      (accumulatePairs draws).length = draws.length) := by
  refine ⟨accumulatePairs_length draws, fun hall => ?_⟩
  have hz : draws.countP (fun p => decide (p.1 = "" ∨ p.2 = "")) = 0 := by
    rw [List.countP_eq_zero]
    intro p hp
    have := hall p hp
    simp [this.1, this.2]
  have := accumulatePairs_length draws
  omega

/-- Witness for the amended C7 on one all-valid draw. -/
theorem C7_witness :
    (∀ p ∈ [(("a" : String), ("b" : String))], p.1 ≠ "" ∧ p.2 ≠ "") ∧
    (accumulatePairs [("a", "b")]).length = [(("a" : String), ("b" : String))].length :=
  ⟨by decide, (C7_amended_skips_consume_draws [("a", "b")]).2 (by decide)⟩

/-- C8 counterexample: a view holding exactly one sample passes the
nonempty guard `if same_sims:` of `print_statistics`, and the call to
`statistics.stdev` then raises `StatisticsError` — the code does not
report the standard deviation as "undefined". -/
theorem C8_counterexample_one_sample_raises :
    reportStdDev [(1 : ℚ) / 2] = some (Except.error "StatisticsError") := rfl

/-- C8 amended: for every view with exactly one sample, the reporting
path of `print_statistics` calls `statistics.stdev` (the guard only
excludes empty views) and the call fails with `StatisticsError` instead
of reporting an "undefined" value. -/
theorem C8_amended_one_sample_raises (xs : List ℚ) (h : xs.length = 1) :
    reportStdDev xs = some (Except.error "StatisticsError") := by
  have hne : xs ≠ [] := by
    intro he
    rw [he] at h
    simp at h
  rw [reportStdDev, if_neg hne, statistics_stdev, if_pos (by omega)]

/-- Witness for the amended C8 on the one-sample view `[1/2]`. -/
theorem C8_witness :
    [(1 : ℚ) / 2].length = 1 ∧
    reportStdDev [(1 : ℚ) / 2] = some (Except.error "StatisticsError") :=
  ⟨rfl, C8_amended_one_sample_raises [(1 : ℚ) / 2] rfl⟩

/-! ### Histogram lemmas -/

lemma bins_getD : ∀ i : ℕ, i < 11 → bins.getD i 0 = (i : ℚ) / 10 := by
  intro i hi
  interval_cases i <;> norm_num [bins]

lemma bucketOf_eq_some {s : ℚ} (h0 : 0 ≤ s) (h1 : s ≤ 1) :
    ∃ j, bucketOf s = some j ∧ j < 10 := by
  rw [bucketOf]
  cases hf : (List.range 10).find?
      (fun i => decide (bins.getD i 0 ≤ s ∧ s < bins.getD (i + 1) 0)) with
  | some j =>
    refine ⟨j, rfl, ?_⟩
    exact List.mem_range.mp (List.mem_of_find?_eq_some hf)
  | none =>
    by_cases hs : s = 1
    · exact ⟨9, by rw [if_pos hs], by norm_num⟩
    · exfalso
      have hlt : s < 1 := lt_of_le_of_ne h1 hs
      have h10 : (0 : ℚ) ≤ 10 * s := by linarith
      have hfl : (0 : ℤ) ≤ ⌊10 * s⌋ := Int.floor_nonneg.mpr h10
      set i0 : ℕ := (⌊10 * s⌋).toNat with hi0
      have hcast : ((i0 : ℚ)) = ((⌊10 * s⌋ : ℤ) : ℚ) := by
        rw [hi0]
        exact_mod_cast congrArg (fun z : ℤ => (z : ℚ)) (Int.toNat_of_nonneg hfl)
      have hle : (i0 : ℚ) ≤ 10 * s := by
        rw [hcast]
        exact Int.floor_le (10 * s)
      have hlt2 : 10 * s < (i0 : ℚ) + 1 := by
        rw [hcast]
        exact_mod_cast Int.lt_floor_add_one (10 * s)
      have hi0lt : i0 < 10 := by
        have : (i0 : ℚ) < 10 := by linarith
        exact_mod_cast this
      have hcond : bins.getD i0 0 ≤ s ∧ s < bins.getD (i0 + 1) 0 := by
        rw [bins_getD i0 (by omega), bins_getD (i0 + 1) (by omega)]
        constructor
        · rw [div_le_iff₀ (by norm_num : (0 : ℚ) < 10)]
          linarith
        · rw [lt_div_iff₀ (by norm_num : (0 : ℚ) < 10)]
          push_cast
          linarith
      have hnone := List.find?_eq_none.mp hf i0 (List.mem_range.mpr hi0lt)
      simp only [decide_eq_true_eq] at hnone
      exact hnone hcond

lemma sum_set_getD_succ :
    ∀ (l : List Nat) (i : Nat), i < l.length →
      (l.set i (l.getD i 0 + 1)).sum = l.sum + 1 := by
  intro l
  induction l with
  | nil => intro i h; simp at h
  | cons a as ih =>
    intro i h
    cases i with
    | zero => simp [List.sum_cons]; omega
    | succ i =>
      simp only [List.set, List.getD_cons_succ, List.sum_cons]
      rw [ih i (by simp at h; omega)]
      omega

lemma foldl_addToHist (sims : List ℚ) :
    ∀ hist : List Nat, hist.length = 10 → (∀ s ∈ sims, 0 ≤ s ∧ s ≤ 1) →
      (sims.foldl addToHist hist).length = 10 ∧
      (sims.foldl addToHist hist).sum = hist.sum + sims.length := by
  induction sims with
  | nil =>
    intro hist hlen _
    exact ⟨hlen, by simp⟩
  | cons s ss ih =>
    intro hist hlen hval
    obtain ⟨j, hj, hjlt⟩ :=
      bucketOf_eq_some (hval s (by simp)).1 (hval s (by simp)).2
    have haddlen : (addToHist hist s).length = 10 := by
      simp [addToHist, hj, hlen]
    have haddsum : (addToHist hist s).sum = hist.sum + 1 := by
      simp only [addToHist, hj]
      exact sum_set_getD_succ hist j (by omega)
    simp only [List.foldl_cons]
    obtain ⟨hl, hsm⟩ := ih (addToHist hist s) haddlen
      (fun x hx => hval x (by simp [hx]))
    refine ⟨hl, ?_⟩
    rw [hsm, haddsum, List.length_cons]
    omega

lemma list_sum_eq_sum_range_getD :
    ∀ l : List Nat, l.sum = ∑ i in Finset.range l.length, l.getD i 0 := by
  intro l
  induction l with
  | nil => simp
  | cons a as ih =>
    rw [List.sum_cons, List.length_cons, Finset.sum_range_succ']
    simp only [List.getD_cons_succ, List.getD_cons_zero]
    rw [← ih]
    omega

/-- C6: for any accumulated list of valid pair similarities lying in
`[0, 1]` (as all similarity values do) and either method, the ten
histogram bucket counts sum to exactly the number of valid pairs — every
value in `[0, 1)` lands in exactly one bucket and an exact `1.0` is
absorbed by the dedicated last bucket — and the reported percentages,
each being `count / total * 100`, add up to exactly 100. -/
theorem C6_histogram_totals (sims : List ℚ) (h : ∀ s ∈ sims, 0 ≤ s ∧ s ≤ 1) :
    (histogram sims).sum = sims.length ∧
    (sims ≠ [] →
      ∑ i in Finset.range 10, percentage ((histogram sims).getD i 0) sims.length
        = 100) := by
  obtain ⟨hlen, hsum⟩ := foldl_addToHist sims (List.replicate 10 0) (by simp) h
  have hsum' : (histogram sims).sum = sims.length := by
    rw [histogram, hsum]
    simp
  refine ⟨hsum', fun hne => ?_⟩
  have hN : 0 < sims.length := List.length_pos.mpr hne
  have hrange : ∑ i in Finset.range 10, (histogram sims).getD i 0
      = (histogram sims).sum := by
    rw [list_sum_eq_sum_range_getD]
    rw [histogram, hlen]
  simp only [percentage]
  rw [← Finset.sum_mul, ← Finset.sum_div, ← Nat.cast_sum, hrange, hsum']
  rw [div_self (by exact_mod_cast hN.ne'), one_mul]

/-- Witness for C6 on the three-sample run `[0, 1/2, 1]`. -/
theorem C6_witness :
    (∀ s ∈ [(0 : ℚ), 1 / 2, 1], 0 ≤ s ∧ s ≤ 1) ∧
    (histogram [(0 : ℚ), 1 / 2, 1]).sum = 3 ∧
    ∑ i in Finset.range 10,
      percentage ((histogram [(0 : ℚ), 1 / 2, 1]).getD i 0) 3 = 100 := by
  have hv : ∀ s ∈ [(0 : ℚ), 1 / 2, 1], 0 ≤ s ∧ s ≤ 1 := by
    intro s hs
    fin_cases hs <;> norm_num
  have h := C6_histogram_totals [0, 1 / 2, 1] hv
  exact ⟨hv, h.1, h.2 (by simp)⟩

end SimHashTest
